import Mathlib

/-!
Shallow embedding of `src/Graph.cpp` (kunlakan/MotifsDetection): an
adjacency-list graph with edge insertion and removal, together with the
ESU-style connected-subgraph enumerator (`enumerateSubgraph`,
`extendSubgraph`, `getExtension`, `isDuplicate`).

Modelling choices:
- C++ `int` values (vertex indices, edge endpoints, `k`) are `Int`.
- The per-vertex edge lists (`vertices[i].edgeHead` chains) are `List Int`,
  gathered in `adj : List (List Int)`; a slot that was never written
  (including the default-constructed slot just past `size`, which the
  anchor loop touches) has an empty list, which `List.getD` supplies.
- The comparisons `Vsubgraph.size() == k` and `Vsubgraph.size() < k` in
  `extendSubgraph` convert the `int k` to `size_t`; `kconv` performs that
  conversion (reduction modulo 2^64) explicitly.
- The recursion of `extendSubgraph` is modelled by `extendFuel`, where the
  fuel counts call-stack depth and the inner while loop is the second
  recursive call; `extendBound` computes a sufficient fuel, and the
  stabilisation theorems below show the result does not depend on the fuel
  once it is at least that bound.
- The statement `list<int> Vextension = getExtension(i, Vextension);` in
  `enumerateSubgraph` reads the list being initialised (an uninitialised
  read); it is modelled as the empty collection.
-/

/-- Embeds the graph state of `Graph.h`/`Graph.cpp`: the `size` member
(non-negative in every reachable state), the per-vertex labels
(`GraphData`), and the per-vertex Edge Sets. -/
structure Graph where
  size : Nat
  labels : List String
  adj : List (List Int)
deriving DecidableEq

/-- Embeds a graph whose `size` has been set to `n` with all vertex slots
default-constructed: empty labels and empty Edge Sets. -/
def graphOfSize (n : Nat) : Graph :=
  ⟨n, List.replicate n (""), List.replicate n []⟩

/-- Embeds `Graph::areInRange` (Graph.cpp:299-305). -/
def areInRange (g : Graph) (source destination : Int) : Bool :=
  decide ((0 ≤ source ∧ source < (g.size : Int)) ∧
          (0 ≤ destination ∧ destination < (g.size : Int)))

/-- Embeds `Graph::insertHelper` (Graph.cpp:188-197): walks to the end of
the list and links the new node there.  Note that the code performs no
duplicate test, despite its header comment. -/
def insertHelper : List Int → Int → List Int
  | [], edge => [edge]
  | c :: rest, edge => c :: insertHelper rest edge

/-- Replaces the element at index `i` by `f` applied to it; a list too
short to have index `i` is returned unchanged. -/
def modifyAt {α : Type} : List α → Nat → (α → α) → List α
  | [], _, _ => []
  | x :: xs, 0, f => f x :: xs
  | x :: xs, n + 1, f => x :: modifyAt xs n f

/-- Embeds `Graph::insertEdge` (Graph.cpp:167-178). -/
def insertEdge (g : Graph) (source destination : Int) : Graph :=
  let vertexFrom := source - 1
  let vertexTo := destination - 1
  if vertexFrom ≠ vertexTo ∧ areInRange g vertexFrom vertexTo then
    { g with adj := modifyAt g.adj vertexFrom.toNat (fun l => insertHelper l vertexTo) }
  else g

/-- Embeds `Graph::removeHelper` (Graph.cpp:222-235): unlinks the first
node carrying `destination`, if any. -/
def removeHelper : List Int → Int → List Int
  | [], _ => []
  | c :: rest, destination =>
    if c = destination then rest else c :: removeHelper rest destination

/-- Embeds `Graph::removeEdge` (Graph.cpp:206-215). -/
def removeEdge (g : Graph) (source destination : Int) : Graph :=
  let vertexFrom := source - 1
  let vertexTo := destination - 1
  if vertexFrom ≠ vertexTo ∧ areInRange g vertexFrom vertexTo then
    { g with adj := modifyAt g.adj vertexFrom.toNat (fun l => removeHelper l vertexTo) }
  else g

/-- The Edge Set of the vertex with 0-based index `v`; empty when the slot
was never written. -/
def edgeSet (g : Graph) (v : Nat) : List Int := g.adj.getD v []

/-- The traversal `for (EdgeNode *w = vertices[v].edgeHead; ...)` as a
list; a slot never written (including the default-constructed slot past
`size` that the anchor loop touches) yields the empty list. -/
def neighborsOf (g : Graph) (v : Int) : List Int :=
  if 0 ≤ v then g.adj.getD v.toNat [] else []

/-- Embeds `Graph::isDuplicate` (Graph.cpp:360-368). -/
def isDuplicate (target : Int) : List Int → Bool
  | [] => false
  | x :: rest => if target = x then true else isDuplicate target rest

/-- Embeds `Graph::getExtension` (Graph.cpp:345-358): copies `Vextension`
and appends every neighbor `u` of `v` with `u > v` that is not already
present in the collection built so far. -/
def getExtension (g : Graph) (v : Int) (ext : List Int) : List Int :=
  (neighborsOf g v).foldl
    (fun acc u => if v < u then (if isDuplicate u acc then acc else acc ++ [u]) else acc)
    ext

/-- The value of the C++ `int k` after the implicit conversion to `size_t`
performed by the comparisons in `extendSubgraph`. -/
def kconv (k : Int) : Nat := (k % (2 ^ 64 : Int)).toNat

/-- Length of the longest adjacency list of `g`. -/
def maxAdj (g : Graph) : Nat := g.adj.foldl (fun m l => max m l.length) 0

/-- Embeds `Graph::extendSubgraph` (Graph.cpp:321-343), with `fuel`
counting call-stack depth.  The returned value collects the emitted
subgraphs in output order; `none` means the fuel ran out.  The while loop
is encoded by the second recursive call (same subgraph, popped extension),
exactly as the loop re-tests its condition after each iteration. -/
def extendFuel (g : Graph) : Nat → List Int → List Int → Nat → Option (List (List Int))
  | 0, _, _, _ => none
  | fuel + 1, sub, ext, kk =>
    if sub.length = kk then some [sub]
    else
      match ext with
      | [] => some []
      | w :: rest =>
        if sub.length < kk then
          match extendFuel g fuel (sub ++ [w]) (getExtension g w rest) kk with
          | none => none
          | some r1 =>
            match extendFuel g fuel sub rest kk with
            | none => none
            | some r2 => some (r1 ++ r2)
        else some []

/-- A call-stack depth sufficient for `extendFuel` to complete, computed
from the target size, the current subgraph and extension, and the largest
adjacency list. -/
def extendBound (g : Graph) (sub ext : List Int) (kk : Nat) : Nat :=
  (kk - sub.length) * (maxAdj g + 1) + ext.length + 1

/-- The (total) result of `Graph::extendSubgraph`: `extendFuel` run at the
sufficient depth `extendBound`. -/
def extendSubgraph (g : Graph) (sub ext : List Int) (kk : Nat) : List (List Int) :=
  (extendFuel g (extendBound g sub ext kk) sub ext kk).getD []

/-- The values taken by the loop counter of the anchor loop
`for (int i = 0; i <= size; i++)` in `Graph::enumerateSubgraph`
(Graph.cpp:311): note the inclusive upper bound. -/
def anchorRange (g : Graph) : List Nat := List.range (g.size + 1)

/-- One iteration of the anchor loop (Graph.cpp:311-318): subgraph `[i]`,
initial extension built by `getExtension` from the (uninitialised,
modelled as empty) collection, then the recursive extend step. -/
def enumStep (g : Graph) (kk : Nat) (acc : List (List Int)) (i : Nat) : List (List Int) :=
  acc ++ extendSubgraph g [(i : Int)] (getExtension g (i : Int) []) kk

/-- Embeds `Graph::enumerateSubgraph` (Graph.cpp:309-319), collecting the
emitted subgraphs (0-based vertex indices, in emission order). -/
def enumerateSubgraph (g : Graph) (k : Int) : List (List Int) :=
  (anchorRange g).foldl (enumStep g (kconv k)) []

/-- One iteration of the anchor loop under explicit fuel. -/
def enumStepFuel (g : Graph) (f : Nat) (kk : Nat)
    (acc : Option (List (List Int))) (i : Nat) : Option (List (List Int)) :=
  match acc with
  | none => none
  | some out =>
    match extendFuel g f [(i : Int)] (getExtension g (i : Int) []) kk with
    | none => none
    | some r => some (out ++ r)

/-- Embeds `Graph::enumerateSubgraph` under explicit call-stack fuel:
`none` means some extend step exhausted the fuel. -/
def enumerateFuel (g : Graph) (f : Nat) (k : Int) : Option (List (List Int)) :=
  (anchorRange g).foldl (enumStepFuel g f (kconv k)) (some [])

/-- A fuel sufficient for every anchor iteration of `enumerateFuel`. -/
def enumBound (g : Graph) (kk : Nat) : Nat := kk * (maxAdj g + 1) + maxAdj g + 1

/-- Instrumented `Graph::extendSubgraph`: collects, in call order, the
argument pairs `(w, Vextension-after-pop)` that the extend step passes to
`getExtension` (Graph.cpp:338), under explicit fuel. -/
def extendCallsFuel (g : Graph) : Nat → List Int → List Int → Nat → List (Int × List Int)
  | 0, _, _, _ => []
  | fuel + 1, sub, ext, kk =>
    if sub.length = kk then []
    else
      match ext with
      | [] => []
      | w :: rest =>
        if sub.length < kk then
          (w, rest) ::
            (extendCallsFuel g fuel (sub ++ [w]) (getExtension g w rest) kk ++
             extendCallsFuel g fuel sub rest kk)
        else []

/-- The complete trace of `getExtension` calls issued by the extend step. -/
def extendCalls (g : Graph) (sub ext : List Int) (kk : Nat) : List (Int × List Int) :=
  extendCallsFuel g (extendBound g sub ext kk) sub ext kk

/-- Modelled from the spec (section 4.2): the output of the extension
builder is `currentExtension` plus every neighbor `u` of `w` such that
`u > root` and `u` is not already present in the resulting collection, new
entries appended after the existing ones in neighbor-list order. -/
def specExtension (g : Graph) (root w : Int) (ext : List Int) : List Int :=
  (neighborsOf g w).foldl
    (fun acc u => if root < u ∧ u ∉ acc then acc ++ [u] else acc)
    ext

/-- Modelled from the spec (section 7c): the enumeration entry point fails
with an InvalidArgument-class condition when `k < 1` or `k > size`. -/
def specEnumerate (g : Graph) (k : Int) : Except String (List (List Int)) :=
  if k < 1 ∨ (g.size : Int) < k then Except.error ("InvalidArgument")
  else Except.ok (enumerateSubgraph g k)

/-- Vertex-array lookup restricted to the valid range `[0, size)`; `none`
models an access outside that range. -/
def neighborsOfChecked (g : Graph) (v : Int) : Option (List Int) :=
  if 0 ≤ v ∧ v < (g.size : Int) then some (neighborsOf g v) else none

/-- Embeds `Graph::getExtension` on top of the checked vertex lookup. -/
def getExtensionChecked (g : Graph) (v : Int) (ext : List Int) : Option (List Int) :=
  (neighborsOfChecked g v).map (fun nbrs =>
    nbrs.foldl
      (fun acc u => if v < u then (if isDuplicate u acc then acc else acc ++ [u]) else acc)
      ext)

/-- One iteration of the anchor loop with the anchor's `getExtension`
array access checked against the valid vertex range. -/
def enumStepChecked (g : Graph) (kk : Nat)
    (acc : Option (List (List Int))) (i : Nat) : Option (List (List Int)) :=
  match acc with
  | none => none
  | some out =>
    match getExtensionChecked g (i : Int) [] with
    | none => none
    | some ext => some (out ++ extendSubgraph g [(i : Int)] ext kk)

/-- Embeds `Graph::enumerateSubgraph` with the anchor-loop vertex-array
access checked: `none` reports that some anchor read a vertex slot outside
the valid range `[0, size)`. -/
def enumerateChecked (g : Graph) (k : Int) : Option (List (List Int)) :=
  (anchorRange g).foldl (enumStepChecked g (kconv k)) (some [])

/-- Graph states reachable by any sequence of `insertEdge` and
`removeEdge` calls from an empty graph of any valid size. -/
inductive Reachable : Graph → Prop where
  | empty (n : Nat) (h : n ≤ 100) : Reachable (graphOfSize n)
  | insert (g : Graph) (s d : Int) (h : Reachable g) : Reachable (insertEdge g s d)
  | remove (g : Graph) (s d : Int) (h : Reachable g) : Reachable (removeEdge g s d)

/-- A one-vertex graph with no edges. -/
def exG1 : Graph := graphOfSize 1

/-- A two-vertex graph with no edges. -/
def exG2 : Graph := graphOfSize 2

/-- A three-vertex graph with directed adjacency `0 -> 2` and `2 -> 1`. -/
def exG3 : Graph := ⟨3, ["a", "b", "c"], [[2], [], [1]]⟩

/-- A two-vertex graph holding the single directed edge inserted as
`insertEdge(1, 2)`. -/
def exGW : Graph := insertEdge (graphOfSize 2) 1 2

theorem isDuplicate_true_iff (t : Int) (l : List Int) : isDuplicate t l = true ↔ t ∈ l := by
  induction l with
  | nil => simp [isDuplicate]
  | cons x rest ih => by_cases h : t = x <;> simp [isDuplicate, h, ih]

theorem insertHelper_eq (l : List Int) (e : Int) : insertHelper l e = l ++ [e] := by
  induction l with
  | nil => rfl
  | cons c rest ih => simp [insertHelper, ih]

theorem modifyAt_length {α : Type} (l : List α) (i : Nat) (f : α → α) :
    (modifyAt l i f).length = l.length := by
  induction l generalizing i with
  | nil => rfl
  | cons x xs ih =>
    cases i with
    | zero => rfl
    | succ n => simp [modifyAt, ih]

theorem modifyAt_getD_ne {α : Type} (l : List α) (i j : Nat) (f : α → α) (d : α)
    (h : j ≠ i) : (modifyAt l i f).getD j d = l.getD j d := by
  induction l generalizing i j with
  | nil => rfl
  | cons x xs ih =>
    cases i with
    | zero =>
      cases j with
      | zero => exact absurd rfl h
      | succ m => simp [modifyAt]
    | succ n =>
      cases j with
      | zero => rfl
      | succ m =>
        simp only [modifyAt, List.getD_cons_succ]
        exact ih n m (fun hc => h (by rw [hc]))

theorem modifyAt_getD_self {α : Type} (l : List α) (i : Nat) (f : α → α) (d : α)
    (h : i < l.length) : (modifyAt l i f).getD i d = f (l.getD i d) := by
  induction l generalizing i with
  | nil => cases h
  | cons x xs ih =>
    cases i with
    | zero => simp [modifyAt]
    | succ n =>
      simp only [modifyAt, List.getD_cons_succ]
      exact ih n (Nat.lt_of_succ_lt_succ h)

theorem modifyAt_oob {α : Type} (l : List α) (i : Nat) (f : α → α)
    (h : l.length ≤ i) : modifyAt l i f = l := by
  induction l generalizing i with
  | nil => rfl
  | cons x xs ih =>
    cases i with
    | zero => cases h
    | succ n => simp only [modifyAt]; rw [ih n (Nat.le_of_succ_le_succ h)]

theorem getD_default_or_mem {α : Type} (L : List α) (n : Nat) (d : α) :
    L.getD n d = d ∨ L.getD n d ∈ L := by
  induction L generalizing n with
  | nil => left; rfl
  | cons x xs ih =>
    cases n with
    | zero => right; simp
    | succ m =>
      rcases ih m with h | h
      · left; simpa using h
      · right; rw [List.getD_cons_succ]; exact List.mem_cons_of_mem _ h

theorem removeHelper_of_not_mem (l : List Int) (d : Int) (h : d ∉ l) :
    removeHelper l d = l := by
  induction l with
  | nil => rfl
  | cons c rest ih =>
    have hc : c ≠ d := fun hc => h (by simp [hc])
    simp only [removeHelper, if_neg hc]
    rw [ih (fun hm => h (List.mem_cons_of_mem _ hm))]

theorem removeHelper_of_mem (l : List Int) (d : Int) (h : d ∈ l) :
    ∃ l1 l2, l = l1 ++ d :: l2 ∧ d ∉ l1 ∧ removeHelper l d = l1 ++ l2 := by
  induction l with
  | nil => cases h
  | cons c rest ih =>
    by_cases hc : c = d
    · subst hc
      exact ⟨[], rest, rfl, by simp, by simp [removeHelper]⟩
    · have hd : d ∈ rest := by
        rcases List.mem_cons.1 h with h' | h'
        · exact absurd h'.symm hc
        · exact h'
      obtain ⟨l1, l2, heq, hnm, hrw⟩ := ih hd
      refine ⟨c :: l1, l2, by rw [heq]; rfl, ?_, ?_⟩
      · intro hm
        rcases List.mem_cons.1 hm with h' | h'
        · exact hc h'.symm
        · exact hnm h'
      · simp only [removeHelper, if_neg hc, hrw]; rfl

theorem removeHelper_mem_of_mem (l : List Int) (d u : Int) (h : u ∈ removeHelper l d) :
    u ∈ l := by
  induction l with
  | nil => cases h
  | cons c rest ih =>
    by_cases hc : c = d
    · simp only [removeHelper, if_pos hc] at h
      exact List.mem_cons_of_mem _ h
    · simp only [removeHelper, if_neg hc] at h
      rcases List.mem_cons.1 h with h' | h'
      · simp [h']
      · exact List.mem_cons_of_mem _ (ih h')

theorem extFold_spec (v : Int) (nbrs : List Int) : ∀ acc : List Int,
    ∃ news,
      nbrs.foldl
        (fun a u => if v < u then (if isDuplicate u a then a else a ++ [u]) else a) acc
        = acc ++ news ∧
      news.Nodup ∧ List.Sublist news nbrs ∧
      ∀ u, u ∈ news ↔ (u ∈ nbrs ∧ v < u ∧ u ∉ acc) := by
  induction nbrs with
  | nil =>
    intro acc
    refine ⟨[], by simp, List.nodup_nil, List.Sublist.refl _, ?_⟩
    intro u; simp
  | cons u0 rest ih =>
    intro acc
    rw [List.foldl_cons]
    by_cases h1 : v < u0
    · rw [if_pos h1]
      by_cases h2 : u0 ∈ acc
      · rw [if_pos ((isDuplicate_true_iff u0 acc).2 h2)]
        obtain ⟨news, heq, hnd, hsub, hiff⟩ := ih acc
        refine ⟨news, heq, hnd, List.Sublist.cons u0 hsub, ?_⟩
        intro u
        rw [hiff u]
        constructor
        · rintro ⟨hu, hv, ha⟩; exact ⟨List.mem_cons_of_mem _ hu, hv, ha⟩
        · rintro ⟨hu, hv, ha⟩
          rcases List.mem_cons.1 hu with rfl | hu
          · exact absurd h2 ha
          · exact ⟨hu, hv, ha⟩
      · rw [if_neg (fun hc => h2 ((isDuplicate_true_iff u0 acc).1 hc))]
        obtain ⟨news, heq, hnd, hsub, hiff⟩ := ih (acc ++ [u0])
        refine ⟨u0 :: news, heq.trans (by simp), ?_, List.Sublist.cons₂ u0 hsub, ?_⟩
        · refine List.nodup_cons.2 ⟨?_, hnd⟩
          intro hu0
          exact ((hiff u0).1 hu0).2.2 (by simp)
        · intro u
          constructor
          · intro hu
            rcases List.mem_cons.1 hu with rfl | hu
            · exact ⟨List.mem_cons_self _ _, h1, h2⟩
            · obtain ⟨hm, hv, ha⟩ := (hiff u).1 hu
              exact ⟨List.mem_cons_of_mem _ hm, hv, fun hua => ha (by simp [hua])⟩
          · rintro ⟨hu, hv, ha⟩
            by_cases huu : u = u0
            · subst huu; exact List.mem_cons_self _ _
            · rcases List.mem_cons.1 hu with rfl | hu
              · exact absurd rfl huu
              · exact List.mem_cons_of_mem _
                  ((hiff u).2 ⟨hu, hv, by simp [ha, huu]⟩)
    · rw [if_neg h1]
      obtain ⟨news, heq, hnd, hsub, hiff⟩ := ih acc
      refine ⟨news, heq, hnd, List.Sublist.cons u0 hsub, ?_⟩
      intro u
      rw [hiff u]
      constructor
      · rintro ⟨hu, hv, ha⟩; exact ⟨List.mem_cons_of_mem _ hu, hv, ha⟩
      · rintro ⟨hu, hv, ha⟩
        rcases List.mem_cons.1 hu with rfl | hu
        · exact absurd hv h1
        · exact ⟨hu, hv, ha⟩

theorem getExtension_spec (g : Graph) (v : Int) (ext : List Int) :
    ∃ news, getExtension g v ext = ext ++ news ∧ news.Nodup ∧
      List.Sublist news (neighborsOf g v) ∧
      ∀ u, u ∈ news ↔ (u ∈ neighborsOf g v ∧ v < u ∧ u ∉ ext) :=
  extFold_spec v (neighborsOf g v) ext

theorem getExtension_length_le (g : Graph) (v : Int) (ext : List Int) :
    (getExtension g v ext).length ≤ ext.length + (neighborsOf g v).length := by
  obtain ⟨news, heq, -, hsub, -⟩ := getExtension_spec g v ext
  rw [heq, List.length_append]
  exact Nat.add_le_add_left hsub.length_le _

theorem le_foldl_max (L : List (List Int)) :
    ∀ acc : Nat, acc ≤ L.foldl (fun m l => max m l.length) acc := by
  induction L with
  | nil => intro acc; exact Nat.le_refl _
  | cons x xs ih =>
    intro acc
    exact Nat.le_trans (Nat.le_max_left _ _) (ih _)

theorem mem_le_foldl_max (L : List (List Int)) :
    ∀ (acc : Nat) (l : List Int), l ∈ L →
      l.length ≤ L.foldl (fun m l => max m l.length) acc := by
  induction L with
  | nil => intro _ _ h; cases h
  | cons x xs ih =>
    intro acc l h
    rcases List.mem_cons.1 h with rfl | h
    · exact Nat.le_trans (Nat.le_max_right _ _) (le_foldl_max xs _)
    · exact ih _ _ h

theorem neighborsOf_length_le (g : Graph) (v : Int) :
    (neighborsOf g v).length ≤ maxAdj g := by
  unfold neighborsOf
  by_cases h : 0 ≤ v
  · rw [if_pos h]
    rcases getD_default_or_mem g.adj v.toNat [] with h' | h'
    · rw [h']; exact Nat.zero_le _
    · exact mem_le_foldl_max g.adj 0 _ h'
  · rw [if_neg h]; exact Nat.zero_le _

theorem getExtension_length_le_maxAdj (g : Graph) (v : Int) (ext : List Int) :
    (getExtension g v ext).length ≤ ext.length + maxAdj g :=
  Nat.le_trans (getExtension_length_le g v ext)
    (Nat.add_le_add_left (neighborsOf_length_le g v) _)

theorem extendBound_pos (g : Graph) (sub ext : List Int) (kk : Nat) :
    1 ≤ extendBound g sub ext kk := by
  unfold extendBound; omega

theorem extendBound_descend (g : Graph) (sub : List Int) (w : Int) (rest : List Int)
    (kk : Nat) (hlt : sub.length < kk) :
    extendBound g (sub ++ [w]) (getExtension g w rest) kk + 2 ≤
      extendBound g sub (w :: rest) kk := by
  have h1 : (getExtension g w rest).length ≤ rest.length + maxAdj g :=
    getExtension_length_le_maxAdj g w rest
  have hL : (sub ++ [w]).length = sub.length + 1 := by simp
  unfold extendBound
  rw [hL]
  have h2 : kk - sub.length = (kk - (sub.length + 1)) + 1 := by omega
  rw [List.length_cons, h2, Nat.succ_mul]
  generalize (kk - (sub.length + 1)) * (maxAdj g + 1) = X
  omega

theorem extendBound_loop (g : Graph) (sub : List Int) (w : Int) (rest : List Int)
    (kk : Nat) :
    extendBound g sub rest kk + 1 ≤ extendBound g sub (w :: rest) kk := by
  unfold extendBound
  rw [List.length_cons]
  generalize (kk - sub.length) * (maxAdj g + 1) = X
  omega

theorem extendFuel_stable (g : Graph) :
    ∀ f1 f2 sub ext kk, extendBound g sub ext kk ≤ f1 → extendBound g sub ext kk ≤ f2 →
      extendFuel g f1 sub ext kk = extendFuel g f2 sub ext kk := by
  intro f1
  induction f1 with
  | zero =>
    intro f2 sub ext kk h1 _
    have := extendBound_pos g sub ext kk
    omega
  | succ a ih =>
    intro f2 sub ext kk h1 h2
    have hpos := extendBound_pos g sub ext kk
    cases f2 with
    | zero => omega
    | succ b =>
      simp only [extendFuel]
      by_cases hk : sub.length = kk
      · rw [if_pos hk, if_pos hk]
      · rw [if_neg hk, if_neg hk]
        cases ext with
        | nil => rfl
        | cons w rest =>
          dsimp only
          by_cases hlt : sub.length < kk
          · have hB := extendBound_descend g sub w rest kk hlt
            have hBl := extendBound_loop g sub w rest kk
            have e1 := ih b (sub ++ [w]) (getExtension g w rest) kk (by omega) (by omega)
            have e2 := ih b sub rest kk (by omega) (by omega)
            rw [if_pos hlt, if_pos hlt, e1, e2]
          · rw [if_neg hlt, if_neg hlt]

theorem extendFuel_isSome (g : Graph) :
    ∀ f sub ext kk, extendBound g sub ext kk ≤ f →
      (extendFuel g f sub ext kk).isSome = true := by
  intro f
  induction f with
  | zero =>
    intro sub ext kk h
    have := extendBound_pos g sub ext kk
    omega
  | succ a ih =>
    intro sub ext kk h
    simp only [extendFuel]
    by_cases hk : sub.length = kk
    · rw [if_pos hk]; rfl
    · rw [if_neg hk]
      cases ext with
      | nil => rfl
      | cons w rest =>
        dsimp only
        by_cases hlt : sub.length < kk
        · rw [if_pos hlt]
          have hB := extendBound_descend g sub w rest kk hlt
          have hBl := extendBound_loop g sub w rest kk
          have s1 := ih (sub ++ [w]) (getExtension g w rest) kk (by omega)
          have s2 := ih sub rest kk (by omega)
          obtain ⟨r1, hr1⟩ := Option.isSome_iff_exists.1 s1
          obtain ⟨r2, hr2⟩ := Option.isSome_iff_exists.1 s2
          rw [hr1, hr2]
          rfl
        · rw [if_neg hlt]; rfl

theorem extendFuel_eq_some (g : Graph) (sub ext : List Int) (kk : Nat) (f : Nat)
    (h : extendBound g sub ext kk ≤ f) :
    extendFuel g f sub ext kk = some (extendSubgraph g sub ext kk) := by
  unfold extendSubgraph
  rw [extendFuel_stable g f (extendBound g sub ext kk) sub ext kk h (Nat.le_refl _)]
  obtain ⟨r, hr⟩ := Option.isSome_iff_exists.1
    (extendFuel_isSome g (extendBound g sub ext kk) sub ext kk (Nat.le_refl _))
  rw [hr]
  rfl

theorem anchor_extendBound_le (g : Graph) (kk i : Nat) :
    extendBound g [(i : Int)] (getExtension g (i : Int) []) kk ≤ enumBound g kk := by
  have h1 : (getExtension g (i : Int) []).length ≤ maxAdj g := by
    simpa using getExtension_length_le_maxAdj g (i : Int) []
  unfold extendBound enumBound
  simp only [List.length_singleton]
  exact Nat.add_le_add
    (Nat.add_le_add (Nat.mul_le_mul_right _ (Nat.sub_le _ _)) h1) (Nat.le_refl 1)

theorem foldl_enumStepFuel_eq (g : Graph) (f kk : Nat)
    (h : ∀ i : Nat, extendFuel g f [(i : Int)] (getExtension g (i : Int) []) kk
        = some (extendSubgraph g [(i : Int)] (getExtension g (i : Int) []) kk)) :
    ∀ (l : List Nat) (acc : List (List Int)),
      l.foldl (enumStepFuel g f kk) (some acc) = some (l.foldl (enumStep g kk) acc) := by
  intro l
  induction l with
  | nil => intro acc; rfl
  | cons i rest ih =>
    intro acc
    rw [List.foldl_cons, List.foldl_cons]
    have hstep : enumStepFuel g f kk (some acc) i = some (enumStep g kk acc i) := by
      unfold enumStepFuel enumStep
      rw [h i]
    rw [hstep, ih]

/-- C8: for every graph and every `k`, the recursive extend step and with
it the whole enumeration run to completion: under the faithful fuel
semantics (where the fuel counts call-stack depth and `none` reports
exhaustion), any fuel at least the explicit bound `enumBound` makes
`enumerateFuel` return the full emission sequence `enumerateSubgraph`.
The bound exists because each recursive call strictly grows the subgraph,
bounded by `k`, while the loop strictly consumes its own extension list
(`extendBound_descend` and `extendBound_loop`). -/
theorem c8_enumeration_terminates (g : Graph) (k : Int) (f : Nat)
    (h : enumBound g (kconv k) ≤ f) :
    enumerateFuel g f k = some (enumerateSubgraph g k) := by
  unfold enumerateFuel enumerateSubgraph
  apply foldl_enumStepFuel_eq
  intro i
  exact extendFuel_eq_some g _ _ _ f (Nat.le_trans (anchor_extendBound_le g (kconv k) i) h)

/-- Witness for C8 at a concrete graph and target size. -/
theorem c8_enumeration_terminates_witness :
    enumBound exG3 (kconv 2) ≤ 6 ∧ enumerateFuel exG3 6 2 = some (enumerateSubgraph exG3 2) :=
  ⟨by decide, c8_enumeration_terminates exG3 2 6 (by decide)⟩

theorem foldl_id {α β : Type} (f : α → β → α) (a : α) (l : List β)
    (h : ∀ x b, f x b = x) : l.foldl f a = a := by
  induction l generalizing a with
  | nil => rfl
  | cons x xs ih => rw [List.foldl_cons, h, ih]

theorem extendFuel_kzero (g : Graph) (f : Nat) (sub ext : List Int)
    (h : sub.length ≠ 0) : extendFuel g (f + 1) sub ext 0 = some [] := by
  simp only [extendFuel]
  rw [if_neg h]
  cases ext with
  | nil => rfl
  | cons w rest => dsimp only; rw [if_neg (by omega)]

theorem extendSubgraph_kzero (g : Graph) (sub ext : List Int)
    (h : sub.length ≠ 0) : extendSubgraph g sub ext 0 = [] := by
  unfold extendSubgraph
  have hb : extendBound g sub ext 0 = ext.length + 1 := by
    unfold extendBound; simp
  rw [hb, extendFuel_kzero g ext.length sub ext h]
  rfl

/-- C7 amended: the enumeration entry point performs no validation of `k`
and signals no error condition; in particular for `k = 0` (below the valid
range) it silently runs and emits nothing, on every graph. -/
theorem c7_amended_no_validation (g : Graph) : enumerateSubgraph g 0 = [] := by
  unfold enumerateSubgraph
  have hk : kconv 0 = 0 := rfl
  rw [hk]
  apply foldl_id
  intro acc i
  unfold enumStep
  rw [extendSubgraph_kzero g [(i : Int)] _ (by simp)]
  exact List.append_nil acc

/-- C7 counterexample: on the one-vertex graph with `k = 0`, the
spec-modelled entry point signals InvalidArgument, while the code's entry
point silently emits nothing (it returns normally with an empty emission
sequence and no error channel exists in the code). -/
theorem c7_counterexample :
    specEnumerate exG1 0 = Except.error ("InvalidArgument") ∧
      enumerateSubgraph exG1 0 = [] :=
  ⟨rfl, rfl⟩

theorem getExtensionChecked_size (g : Graph) (ext : List Int) :
    getExtensionChecked g (g.size : Int) ext = none := by
  unfold getExtensionChecked neighborsOfChecked
  rw [if_neg (fun hc => lt_irrefl _ hc.2)]
  rfl

/-- C10: for every graph and every `k`, the anchor loop of the enumeration
entry point reads the vertex array at index `size`, outside the valid
range `[0, size)`: under the embedding whose vertex lookup returns an
Option, the whole checked enumeration is `none`. -/
theorem c10_anchor_reads_out_of_range (g : Graph) (k : Int) :
    enumerateChecked g k = none := by
  unfold enumerateChecked anchorRange
  rw [List.range_succ, List.foldl_append, List.foldl_cons, List.foldl_nil]
  generalize (List.range g.size).foldl (enumStepChecked g (kconv k)) (some []) = X
  cases X with
  | none => rfl
  | some out =>
    unfold enumStepChecked
    rw [getExtensionChecked_size g []]

theorem getExtension_eq_specExtension (g : Graph) (v : Int) (ext : List Int) :
    getExtension g v ext = specExtension g v v ext := by
  have hf : (fun (acc : List Int) (u : Int) =>
        if v < u then (if isDuplicate u acc then acc else acc ++ [u]) else acc)
      = (fun (acc : List Int) (u : Int) => if v < u ∧ u ∉ acc then acc ++ [u] else acc) := by
    funext acc u
    by_cases h1 : v < u
    · rw [if_pos h1]
      by_cases h2 : u ∈ acc
      · rw [if_pos ((isDuplicate_true_iff u acc).2 h2), if_neg (fun hc => hc.2 h2)]
      · rw [if_neg (fun hc => h2 ((isDuplicate_true_iff u acc).1 hc)), if_pos ⟨h1, h2⟩]
    · rw [if_neg h1, if_neg (fun hc => h1 hc.1)]
  unfold getExtension specExtension
  rw [hf]

/-- C1 amended: the extension builder returns `currentExtension` plus every
neighbor `u` of the vertex argument `w` with `u > w` — the comparison is
against the most-recently-added vertex itself, not against the
enumeration's anchor `root` — entries already present are not added again,
and the new entries are appended after the existing ones in neighbor-list
order, without duplicates. -/
theorem c1_amended_extension_builder (g : Graph) (v : Int) (ext : List Int) :
    getExtension g v ext = specExtension g v v ext ∧
    ∃ news, getExtension g v ext = ext ++ news ∧ news.Nodup ∧
      List.Sublist news (neighborsOf g v) ∧
      ∀ u, u ∈ news ↔ (u ∈ neighborsOf g v ∧ v < u ∧ u ∉ ext) :=
  ⟨getExtension_eq_specExtension g v ext, getExtension_spec g v ext⟩

/-- C1 counterexample: in the graph `exG3` (edges `0 -> 2`, `2 -> 1`), the
enumeration anchored at root `0` with `k = 3` reaches the extension-builder
call with most-recently-added vertex `w = 2` and inherited collection `[]`,
and there the code's result (comparison against `w`) differs from the
claimed result (comparison against the anchor `0`, which would admit the
neighbor `1`). -/
theorem c1_counterexample_root_rule :
    (((2 : Int), ([] : List Int)) ∈ extendCalls exG3 [0] (getExtension exG3 0 []) 3) ∧
    getExtension exG3 2 [] ≠ specExtension exG3 0 2 [] := by
  decide

/-- C2 (code bug): inserting the edge `(1,2)` twice into a two-vertex
graph leaves vertex 0's Edge Set `[1, 1]` — the second insert appends a
duplicate instead of being ignored, contradicting both the spec and the
code's own header comment on `insertHelper`. -/
theorem c2_duplicate_insert_changes_state :
    edgeSet (insertEdge (graphOfSize 2) 1 2) 0 = [1] ∧
    edgeSet (insertEdge (insertEdge (graphOfSize 2) 1 2) 1 2) 0 = [1, 1] := by
  decide

/-- C3 (code bug): on a two-vertex graph the anchor loop visits roots
`0, 1, 2` — including `root = size = 2` — and the `k = 1` enumeration
indeed emits a subgraph for that out-of-range anchor, instead of iterating
only over `0..size-1`. -/
theorem c3_anchor_loop_overruns :
    anchorRange exG2 = [0, 1, 2] ∧ enumerateSubgraph exG2 1 = [[0], [1], [2]] := by
  decide

/-- C4 (code bug): on a graph of size 1 with `k = 1`, the enumeration
emits two subgraphs, `[0]` and `[1]` — one per anchor of the overrunning
loop, including the out-of-range vertex `1` — not exactly `size = 1`
singletons drawn from `0..size-1`. -/
theorem c4_k1_emits_out_of_range :
    exG1.size = 1 ∧ enumerateSubgraph exG1 1 = [[0], [1]] := by
  decide

theorem insertEdge_size (g : Graph) (s d : Int) : (insertEdge g s d).size = g.size := by
  simp only [insertEdge]
  split <;> rfl

theorem removeEdge_size (g : Graph) (s d : Int) : (removeEdge g s d).size = g.size := by
  simp only [removeEdge]
  split <;> rfl

theorem insert_preserves_inv (g : Graph) (s d : Int)
    (ih : ∀ v : Nat, ∀ u ∈ edgeSet g v, u ≠ (v : Int) ∧ 0 ≤ u ∧ u < (g.size : Int)) :
    ∀ v : Nat, ∀ u ∈ edgeSet (insertEdge g s d) v,
      u ≠ (v : Int) ∧ 0 ≤ u ∧ u < ((insertEdge g s d).size : Int) := by
  intro v u hu
  rw [insertEdge_size g s d]
  simp only [insertEdge] at hu
  by_cases hc : (s - 1 ≠ d - 1) ∧ areInRange g (s - 1) (d - 1) = true
  · rw [if_pos hc] at hu
    obtain ⟨hne, hr⟩ := hc
    simp only [areInRange, decide_eq_true_eq] at hr
    obtain ⟨⟨hs0, hss⟩, hd0, hds⟩ := hr
    by_cases hv : v = (s - 1).toNat
    · subst hv
      rcases Nat.lt_or_ge (s - 1).toNat g.adj.length with hlen | hlen
      · have heq : edgeSet
            { g with adj := modifyAt g.adj (s - 1).toNat (fun l => insertHelper l (d - 1)) }
            (s - 1).toNat = insertHelper (edgeSet g (s - 1).toNat) (d - 1) := by
          unfold edgeSet
          exact modifyAt_getD_self _ _ _ _ hlen
        rw [heq, insertHelper_eq] at hu
        rcases List.mem_append.1 hu with hu' | hu'
        · exact ih _ u hu'
        · have hud : u = d - 1 := by simpa using hu'
          subst hud
          refine ⟨?_, hd0, hds⟩
          rw [Int.toNat_of_nonneg hs0]
          exact fun hc' => hne hc'.symm
      · have heq : modifyAt g.adj (s - 1).toNat (fun l => insertHelper l (d - 1)) = g.adj :=
          modifyAt_oob _ _ _ hlen
        unfold edgeSet at hu
        rw [heq] at hu
        exact ih _ u hu
    · have heq : edgeSet
          { g with adj := modifyAt g.adj (s - 1).toNat (fun l => insertHelper l (d - 1)) } v
          = edgeSet g v := by
        unfold edgeSet
        exact modifyAt_getD_ne _ _ _ _ _ hv
      rw [heq] at hu
      exact ih _ u hu
  · rw [if_neg hc] at hu
    exact ih v u hu

theorem remove_edgeSet_subset (g : Graph) (s d : Int) (v : Nat) (u : Int)
    (hu : u ∈ edgeSet (removeEdge g s d) v) : u ∈ edgeSet g v := by
  simp only [removeEdge] at hu
  by_cases hc : (s - 1 ≠ d - 1) ∧ areInRange g (s - 1) (d - 1) = true
  · rw [if_pos hc] at hu
    by_cases hv : v = (s - 1).toNat
    · subst hv
      rcases Nat.lt_or_ge (s - 1).toNat g.adj.length with hlen | hlen
      · have heq : edgeSet
            { g with adj := modifyAt g.adj (s - 1).toNat (fun l => removeHelper l (d - 1)) }
            (s - 1).toNat = removeHelper (edgeSet g (s - 1).toNat) (d - 1) := by
          unfold edgeSet
          exact modifyAt_getD_self _ _ _ _ hlen
        rw [heq] at hu
        exact removeHelper_mem_of_mem _ _ _ hu
      · have heq : modifyAt g.adj (s - 1).toNat (fun l => removeHelper l (d - 1)) = g.adj :=
          modifyAt_oob _ _ _ hlen
        unfold edgeSet at hu ⊢
        rw [heq] at hu
        exact hu
    · have heq : edgeSet
          { g with adj := modifyAt g.adj (s - 1).toNat (fun l => removeHelper l (d - 1)) } v
          = edgeSet g v := by
        unfold edgeSet
        exact modifyAt_getD_ne _ _ _ _ _ hv
      rw [heq] at hu
      exact hu
  · rw [if_neg hc] at hu
    exact hu

/-- C5: in every reachable graph state, the Edge Set of any vertex `v`
contains neither `v` itself nor any index outside `[0, size)`; the range
guard of `insertEdge` establishes this and `removeEdge` only ever removes
entries. -/
theorem c5_edge_set_invariant (g : Graph) (h : Reachable g) (v : Nat) (u : Int)
    (hu : u ∈ edgeSet g v) : u ≠ (v : Int) ∧ 0 ≤ u ∧ u < (g.size : Int) := by
  induction h generalizing v u with
  | empty n hn =>
    exfalso
    have hempty : edgeSet (graphOfSize n) v = [] := by
      unfold edgeSet graphOfSize
      rcases getD_default_or_mem (List.replicate n ([] : List Int)) v [] with h' | h'
      · exact h'
      · exact List.eq_of_mem_replicate h'
    rw [hempty] at hu
    cases hu
  | insert g0 s d hg ih =>
    exact insert_preserves_inv g0 s d (fun v' u' hu' => ih v' u' hu') v u hu
  | remove g0 s d hg ih =>
    have hu0 := remove_edgeSet_subset g0 s d v u hu
    have hres := ih v u hu0
    rw [removeEdge_size g0 s d]
    exact hres

/-- Witness for C5 at the concrete reachable state `exGW`. -/
theorem c5_edge_set_invariant_witness :
    (1 : Int) ∈ edgeSet exGW 0 ∧
      ((1 : Int) ≠ ((0 : Nat) : Int) ∧ 0 ≤ (1 : Int) ∧ (1 : Int) < (exGW.size : Int)) :=
  ⟨by decide, c5_edge_set_invariant exGW
    (Reachable.insert (graphOfSize 2) 1 2 (Reachable.empty 2 (by omega))) 0 1 (by decide)⟩

/-- C6: for an in-range, non-self-loop pair, `removeEdge` removes exactly
the first entry equal to `destination - 1` from the source's Edge Set when
present (and nothing else), and leaves the Edge Set exactly unchanged when
absent; no error is signalled in either case (the operation is total). -/
theorem c6_remove_edge (g : Graph) (s d : Int) (h1 : s - 1 ≠ d - 1)
    (h2 : areInRange g (s - 1) (d - 1) = true) :
    ((d - 1) ∉ edgeSet g (s - 1).toNat →
      edgeSet (removeEdge g s d) (s - 1).toNat = edgeSet g (s - 1).toNat) ∧
    ((d - 1) ∈ edgeSet g (s - 1).toNat →
      ∃ l1 l2, edgeSet g (s - 1).toNat = l1 ++ (d - 1) :: l2 ∧ (d - 1) ∉ l1 ∧
        edgeSet (removeEdge g s d) (s - 1).toNat = l1 ++ l2) := by
  simp only [removeEdge]
  rw [if_pos ⟨h1, h2⟩]
  rcases Nat.lt_or_ge (s - 1).toNat g.adj.length with hlen | hlen
  · have heq : edgeSet
        { g with adj := modifyAt g.adj (s - 1).toNat (fun l => removeHelper l (d - 1)) }
        (s - 1).toNat = removeHelper (edgeSet g (s - 1).toNat) (d - 1) := by
      unfold edgeSet
      exact modifyAt_getD_self _ _ _ _ hlen
    rw [heq]
    constructor
    · intro hnm
      exact removeHelper_of_not_mem _ _ hnm
    · intro hm
      exact removeHelper_of_mem _ _ hm
  · have heq : edgeSet
        { g with adj := modifyAt g.adj (s - 1).toNat (fun l => removeHelper l (d - 1)) }
        (s - 1).toNat = edgeSet g (s - 1).toNat := by
      unfold edgeSet
      rw [modifyAt_oob _ _ _ hlen]
    rw [heq]
    constructor
    · intro _
      rfl
    · intro hm
      exfalso
      have hempty : edgeSet g (s - 1).toNat = [] := by
        unfold edgeSet
        exact List.getD_eq_default _ _ hlen
      rw [hempty] at hm
      cases hm

/-- Witness for C6 at the concrete graph `exGW` holding the edge (1,2). -/
theorem c6_remove_edge_witness :
    ((1 : Int) - 1 ≠ (2 : Int) - 1) ∧ areInRange exGW (1 - 1) (2 - 1) = true ∧
      ∃ l1 l2, edgeSet exGW ((1 : Int) - 1).toNat = l1 ++ ((2 : Int) - 1) :: l2 ∧
        ((2 : Int) - 1) ∉ l1 ∧ edgeSet (removeEdge exGW 1 2) ((1 : Int) - 1).toNat = l1 ++ l2 :=
  ⟨by decide, by decide,
    (c6_remove_edge exGW 1 2 (by decide) (by decide)).2 (by decide)⟩

/-- C9: `insertEdge(a, b)` modifies at most the Edge Set of vertex `a-1`:
`size`, all labels, and the Edge Set of every other index (in particular
`b-1`) are unchanged, so no mirrored edge `(b, a)` is ever added. -/
theorem c9_insert_frame (g : Graph) (a b : Int) (j : Nat) (hj : (j : Int) ≠ a - 1) :
    (insertEdge g a b).size = g.size ∧ (insertEdge g a b).labels = g.labels ∧
      edgeSet (insertEdge g a b) j = edgeSet g j := by
  simp only [insertEdge]
  by_cases hc : (a - 1 ≠ b - 1) ∧ areInRange g (a - 1) (b - 1) = true
  · rw [if_pos hc]
    refine ⟨rfl, rfl, ?_⟩
    unfold edgeSet
    apply modifyAt_getD_ne
    intro hji
    apply hj
    rw [hji]
    have h0 : (0 : Int) ≤ a - 1 := by
      have hr := hc.2
      simp only [areInRange, decide_eq_true_eq] at hr
      exact hr.1.1
    exact Int.toNat_of_nonneg h0
  · rw [if_neg hc]
    exact ⟨rfl, rfl, rfl⟩

/-- Witness for C9: inserting (1,3) into `exG3` leaves vertex 2 alone. -/
theorem c9_insert_frame_witness :
    (((2 : Nat) : Int) ≠ (1 : Int) - 1) ∧
      ((insertEdge exG3 1 3).size = exG3.size ∧ (insertEdge exG3 1 3).labels = exG3.labels ∧
        edgeSet (insertEdge exG3 1 3) 2 = edgeSet exG3 2) :=
  ⟨by decide, c9_insert_frame exG3 1 3 2 (by decide)⟩
